import Mathlib

/-!
# Verification of the reindexer namespace storage engine (selected components)

Shallow embedding of the parts of the reindexer source that the claims
touch: the string store index `IndexStore<key_string>`
(core/index/indexstore.cc), the generic store-index `SelectKey` and
`Clone`, the fuzzy full-text `Select` (core/index/indextext/
fuzzyindextext.cc), the RPC transaction table (server/rpcserver.cc), the
HTTP transaction idle-timeout machinery (server/httpserver.cc), and the
namespace locker (core/namespace/namespaceimpl.h).

C++ machine integers are modelled as `Nat`/`Int` (none of the modelled
paths can overflow their 64-bit counters in the source's domain), and
the fuzzy-engine `double` scores as `ℚ`.
-/

set_option autoImplicit false

namespace Reindexer

/-- Error codes from tools/errors.h that the modelled code paths can
produce (`errOK` is code 0, success). -/
inductive ErrCode where
  | errOK
  | errParams
  | errLogic
  | errForbidden
  | errNotFound
  | errNamespaceInvalidated
  | errTagsMissmatch
  | errOther
deriving DecidableEq, Repr

/-! ## IndexStore<key_string> (core/index/indexstore.cc)

`key_string` is a reference-counted immutable string.  Two `key_string`
handles can hold equal character data while pointing at distinct heap
allocations; we model a handle as its character data plus an allocation
identity, so that "same interned string" (pointer equality) is
expressible.  `str_map` is `unordered_str_map<int>`: a hash map from the
interned `key_string` to a signed reference count, looked up by
character data (`string_view`); we model it as an association list keyed
by character data.  Counts are modelled as `Nat`: the source decrements
only under a non-zero guard, so the count never goes negative. -/

/-- A `key_string` handle: character data plus the identity of the heap
allocation holding it. -/
structure KString where
  allocId : Nat
  val : String
deriving DecidableEq, Repr

/-- `sizeof(unordered_str_map<int>::value_type)` — a symbolic byte count
for one map node (the exact value is a platform constant; the claims
only need it to be fixed). -/
def sizeofStrMapNode : Int := 16

/-- `sizeof(vector<key_string>::value_type)` — byte size of one slot of
`expiredStrings_`. -/
def sizeofExpiredSlot : Int := 8

/-- `sizeof(*k.get()) + k->heap_size()` — bytes owned by one interned
string: a fixed header plus the character data. -/
def kstringHeapBytes (k : KString) : Int := 32 + (k.val.length : Int)

/-- A `Variant` as passed to the string store index: either `Null`
(`KeyValueNull`) or a string holding a `key_string`. -/
inductive KVariant where
  | null
  | str (k : KString)
deriving DecidableEq, Repr

/-- The state of an `IndexStore<key_string>`: the interning map
`str_map`, the untouched dense column `idx_data` (the `key_string`
specialization of `Upsert` never writes it), `memStat_.dataSize`, the
deferred-free list `expiredStrings_` and its byte counter
`expiredStringsMemStat_`. -/
structure StoreKS where
  str_map : List (KString × Nat)
  idx_data : List KString
  dataSize : Int
  expiredStrings : List KString
  expiredStringsMemStat : Int
deriving DecidableEq, Repr

/-- `str_map.find(string_view(key))`: first entry whose character data
equals `s`. -/
def findKS : List (KString × Nat) → String → Option (KString × Nat)
  | [], _ => none
  | e :: rest, s => if e.1.val = s then some e else findKS rest s

/-- Erase the (first) entry with character data `s`
(`str_map.erase<no_deep_clean>(keyIt)`). -/
def eraseKS : List (KString × Nat) → String → List (KString × Nat)
  | [], _ => []
  | e :: rest, s => if e.1.val = s then rest else e :: eraseKS rest s

/-- Replace the count of the (first) entry with character data `s`
(in-place `keyIt->second--`). -/
def setCountKS : List (KString × Nat) → String → Nat → List (KString × Nat)
  | [], _, _ => []
  | e :: rest, s, c => if e.1.val = s then (e.1, c) :: rest else e :: setCountKS rest s c

/-- `IndexStore<key_string>::Upsert(key, id)` (indexstore.cc:82-93).
Null keys return an empty Variant at once; otherwise the key is looked
up by character data, inserted with count 0 when absent (the map then
owns the caller's `key_string` handle), the count is incremented, and
the stored (interned) `key_string` is returned.  `id` is unused in the
source. -/
def Upsert (st : StoreKS) (key : KVariant) : KVariant × StoreKS :=
  match key with
  | .null => (.null, st)
  | .str k =>
    match findKS st.str_map k.val with
    | some (stored, cnt) =>
      (.str stored, { st with str_map := setCountKS st.str_map k.val (cnt + 1) })
    | none =>
      (.str k,
       { st with
         str_map := st.str_map ++ [(k, 1)]
         dataSize := st.dataSize + sizeofStrMapNode + kstringHeapBytes k })

/-- `IndexStore<key_string>::Delete(key, id)` (indexstore.cc:48-63).
Null keys and keys absent from `str_map` return at once.  Otherwise the
count is decremented (under a non-zero guard); when it reaches zero the
entry is erased from `str_map` and its `key_string` is moved to the back
of `expiredStrings_`, with the memory statistics adjusted.  `id` is
unused in the source. -/
def Delete (st : StoreKS) (key : KVariant) : StoreKS :=
  match key with
  | .null => st
  | .str k =>
    match findKS st.str_map k.val with
    | none => st
    | some (stored, cnt) =>
      let cnt2 := if cnt ≠ 0 then cnt - 1 else cnt
      if cnt2 = 0 then
        { st with
          str_map := eraseKS st.str_map k.val
          dataSize := st.dataSize - sizeofStrMapNode + sizeofExpiredSlot
          expiredStringsMemStat := st.expiredStringsMemStat + kstringHeapBytes stored
          expiredStrings := st.expiredStrings ++ [stored] }
      else { st with str_map := setCountKS st.str_map k.val cnt2 }

/-- `IndexStore<T>::Delete(const VariantArray &, id)` (indexstore.cc:
67-74): an empty array is treated as one `Delete` of the Null Variant,
otherwise each element is deleted in order. -/
def DeleteArray (st : StoreKS) (keys : List KVariant) : StoreKS :=
  match keys with
  | [] => Delete st .null
  | _ => keys.foldl Delete st

/-- `IndexStore<key_string>::RemoveExpiredStrings()` (indexstore.cc:
38-42): subtract the deferred strings' bytes from the memory statistic
and clear `expiredStrings_`. -/
def RemoveExpiredStrings (st : StoreKS) : StoreKS :=
  { st with
    dataSize :=
      st.dataSize - (sizeofExpiredSlot * (st.expiredStrings.length : Int) + st.expiredStringsMemStat)
    expiredStringsMemStat := 0
    expiredStrings := [] }

/-- The copy constructor `IndexStore<key_string>::IndexStore(const
IndexStore &)` (indexstore.cc:9-11): copies `str_map`, `idx_data` and
`memStat_` but neither `expiredStrings_` nor `expiredStringsMemStat_`,
which stay default-initialized (empty / zero). -/
def copyCtor (st : StoreKS) : StoreKS :=
  { str_map := st.str_map
    idx_data := st.idx_data
    dataSize := st.dataSize
    expiredStrings := []
    expiredStringsMemStat := 0 }

/-- `IndexStore<T>::Clone()` (indexstore.cc:148-152): copy-construct the
clone, then `std::swap` the `expiredStrings_` vectors of clone and
source.  Returns (clone, source after the call). -/
def Clone (st : StoreKS) : StoreKS × StoreKS :=
  let ret := copyCtor st
  ({ ret with expiredStrings := st.expiredStrings },
   { st with expiredStrings := ret.expiredStrings })

/-! ### Traces of Upsert/Delete calls on a string store index -/

/-- One public mutation of the string store index. -/
inductive StoreOp where
  | ups (k : KString)
  | del (v : KVariant)
deriving DecidableEq, Repr

/-- Apply one mutation (the state part; `Upsert`'s returned Variant is
dropped). -/
def stepOp (st : StoreKS) : StoreOp → StoreKS
  | .ups k => (Upsert st (.str k)).2
  | .del v => Delete st v

/-- Run a trace of mutations left to right. -/
def runOps (st : StoreKS) : List StoreOp → StoreKS
  | [] => st
  | op :: rest => runOps (stepOp st op) rest

/-- The current reference count stored for character data `s` (0 when
absent from `str_map`). -/
def countOf (st : StoreKS) (s : String) : Nat :=
  match findKS st.str_map s with
  | some e => e.2
  | none => 0

/-- The interned `key_string` currently stored for character data `s`. -/
def storedOf (st : StoreKS) (s : String) : Option KString :=
  (findKS st.str_map s).map (fun e => e.1)

/-- How many `Upsert`s of character data `s` a trace contains. -/
def upsCount (s : String) : List StoreOp → Nat
  | [] => 0
  | .ups k :: rest => (if k.val = s then 1 else 0) + upsCount s rest
  | .del _ :: rest => upsCount s rest

/-- How many `Delete`s of character data `s` in a trace find the key
present in `str_map` (the others return without effect). -/
def effDelCount (st : StoreKS) (s : String) : List StoreOp → Nat
  | [] => 0
  | op :: rest =>
    (match op with
     | .del (.str k) =>
       if k.val = s ∧ (findKS st.str_map s).isSome then 1 else 0
     | _ => 0) + effDelCount (stepOp st op) s rest

/-- How many `Delete`s of character data `s` a trace contains
(whether or not they find the key). -/
def delCount (s : String) : List StoreOp → Nat
  | [] => 0
  | .del (.str k) :: rest => (if k.val = s then 1 else 0) + delCount s rest
  | _ :: rest => delCount s rest

/-- A freshly constructed string store index: everything empty. -/
def emptyKS : StoreKS :=
  { str_map := [], idx_data := [], dataSize := 0
    expiredStrings := [], expiredStringsMemStat := 0 }

/-- A store holding the single interned string `"a"` (allocation 0) with
reference count 1 — a handy concrete state. -/
def oneKeyA : StoreKS :=
  { str_map := [(⟨0, "a"⟩, 1)], idx_data := [], dataSize := 0
    expiredStrings := [], expiredStringsMemStat := 0 }

/-- `s` stays present in `str_map` after every step of the trace (its
count never drops to zero, so it is never expired). -/
def presentThrough (st : StoreKS) (s : String) : List StoreOp → Bool
  | [] => true
  | op :: rest =>
    (findKS (stepOp st op).str_map s).isSome && presentThrough (stepOp st op) s rest

/-- Well-formed `str_map`: character data is unique across entries and
every stored count is at least 1 (entries are erased the moment their
count reaches zero).  Holds for every state reachable from empty. -/
def WFmap (m : List (KString × Nat)) : Prop :=
  (m.map (fun e => e.1.val)).Nodup ∧ ∀ e ∈ m, 1 ≤ e.2

/-! ## IndexStore<T>::SelectKey (indexstore.cc:131-145) -/

/-- Query condition kinds (core/type_consts.h) reaching `SelectKey`. -/
inductive CondType where
  | CondAny
  | CondEq
  | CondLt
  | CondLe
  | CondGt
  | CondGe
  | CondRange
  | CondSet
  | CondAllSet
  | CondEmpty
  | CondLike
deriving DecidableEq, Repr

/-- The index options `SelectKey` consults. -/
structure IndexOpts where
  isArray : Bool
  isSparse : Bool
deriving DecidableEq, Repr

/-- `Index::SelectOpts` fields consulted by the store `SelectKey`. -/
structure SelOpts where
  distinct : Bool
deriving DecidableEq, Repr

/-- A scan-fallback comparator as pushed by the store `SelectKey`
(condition plus the distinct flag; the payload/field plumbing carried
alongside in the source does not affect control flow here). -/
structure Comparator where
  cond : CondType
  distinct : Bool
deriving DecidableEq, Repr

/-- `SelectKeyResult`: comparators (scan fallback) and/or id sets. -/
structure SelectKeyRes where
  comparators : List Comparator
  idsets : List (List Nat)
deriving DecidableEq, Repr

/-- `IndexStore<T>::SelectKey` (indexstore.cc:131-145): `CondEmpty` on a
non-array, non-sparse index throws `errParams`; `CondAny` on a
non-array, non-sparse index throws `errParams` unless
`sopts.distinct` is set; every other call returns one `Comparator` and
no id sets. -/
def SelectKey (opts : IndexOpts) (cond : CondType) (sopts : SelOpts) :
    Except ErrCode SelectKeyRes :=
  if cond = .CondEmpty ∧ opts.isArray = false ∧ opts.isSparse = false then
    .error .errParams
  else if cond = .CondAny ∧ opts.isArray = false ∧ opts.isSparse = false ∧
      sopts.distinct = false then
    .error .errParams
  else
    .ok { comparators := [{ cond := cond, distinct := sopts.distinct }], idsets := [] }

/-! ## NamespaceImpl::Locker (namespaceimpl.h:221-247) -/

/-- `Locker::WLock`: acquire the unique lock, then fail with
`errNamespaceInvalidated` when the atomic `readonly_` flag is set. -/
def WLock (readonly : Bool) : Except ErrCode Unit :=
  if readonly then .error .errNamespaceInvalidated else .ok ()

/-- `Locker::StorageLock`: acquire the storage mutex, then fail with
`errNamespaceInvalidated` when `readonly_` is set. -/
def StorageLock (readonly : Bool) : Except ErrCode Unit :=
  if readonly then .error .errNamespaceInvalidated else .ok ()

/-- `Locker::RLock`: acquire the shared lock; no read-only check. -/
def RLock (_readonly : Bool) : Except ErrCode Unit :=
  .ok ()

/-! ## RPC transaction table (server/rpcserver.cc)

A client's `txs` vector is modelled by the per-slot `IsFree()` bit
(`true` = free).  `db.NewTransaction` is an external collaborator and is
modelled as succeeding. -/

/-- `kMaxTxCount` (rpcserver.cc:15). -/
def kMaxTxCount : Nat := 1024

/-- The lowest index of a free slot, scanning `txs` from the front
(rpcserver.cc:637-642). -/
def findFreeSlot : List Bool → Option Nat
  | [] => none
  | b :: rest => if b then some 0 else (findFreeSlot rest).map (fun i => i + 1)

/-- `RPCServer::addTx` (rpcserver.cc:633-659): scan for the lowest free
slot; with no free slot and `txs.size() >= kMaxTxCount` throw
`errForbidden`; otherwise store the new transaction in the free slot, or
append it, and return its index. -/
def addTx (txs : List Bool) : Except ErrCode (List Bool × Nat) :=
  match findFreeSlot txs with
  | some i => .ok (txs.set i false, i)
  | none =>
    if kMaxTxCount ≤ txs.length then .error .errForbidden
    else .ok (txs ++ [false], txs.length)

/-- `RPCServer::clearTx` (rpcserver.cc:660-668): out-of-range ids throw
`errLogic`; otherwise the slot is overwritten with a default (free)
`Transaction`. -/
def clearTx (txs : List Bool) (txId : Nat) : Except ErrCode (List Bool) :=
  if txs.length ≤ txId then .error .errLogic
  else .ok (txs.set txId true)

/-! ## RPCServer::AddTxItem (rpcserver.cc:313-349)

The item machinery and CJSON decoding are external to this path; the
environment records the status of `tr.NewItem()`, the result of
`processTxItem` on that item, the status of the fresh
`getDB(...).NewItem(...)`, and the result of `processTxItem` on the
fresh item. -/

/-- Outcomes of the collaborator calls made by `AddTxItem`. -/
structure TxItemEnv where
  trNewItemStatus : ErrCode
  firstDecode : ErrCode
  dbNewItemStatus : ErrCode
  retryDecode : ErrCode
deriving DecidableEq, Repr

/-- `RPCServer::AddTxItem` (rpcserver.cc:313-349): returns the error
handed to the client and whether `tr.Modify` was reached (the item was
added to the transaction).  A first decode failing with
`errTagsMissmatch` is retried exactly once on a fresh item from the
namespace; any other first-attempt error, a failure to obtain the fresh
item, or any retry error is returned without modifying the
transaction. -/
def AddTxItem (env : TxItemEnv) : ErrCode × Bool :=
  if env.trNewItemStatus ≠ .errOK then (env.trNewItemStatus, false)
  else
    if env.firstDecode = .errTagsMissmatch then
      if env.dbNewItemStatus = .errOK then
        if env.retryDecode ≠ .errOK then (env.retryDecode, false)
        else (.errOK, true)
      else (env.dbNewItemStatus, false)
    else
      if env.firstDecode ≠ .errOK then (env.firstDecode, false)
      else (.errOK, true)

/-! ## HTTP transaction idle timeout (server/httpserver.cc)

Time is modelled as `Nat` ticks of `TxDeadlineClock`; the transaction
map as an association list from tx id to its `TxInfo`.  Whether the
system auth context can open a transaction's database
(`dbMgr_.OpenDatabase` + `GetDB`, an external collaborator) is modelled
by the oracle `dbOk`. -/

/-- `HTTPServer::TxInfo` fields the timeout machinery uses. -/
structure TxInfo where
  dbName : String
  txDeadline : Nat
deriving DecidableEq, Repr

/-- `iequals`: case-insensitive string comparison (tools/stringstools). -/
def iequals (a b : String) : Bool :=
  a.toLower == b.toLower

/-- `txMap_.find(txId)`. -/
def findTx : List (String × TxInfo) → String → Option TxInfo
  | [], _ => none
  | e :: rest, txId => if e.1 = txId then some e.2 else findTx rest txId

/-- Overwrite the deadline of the entry for `txId`. -/
def setDeadline : List (String × TxInfo) → String → Nat → List (String × TxInfo)
  | [], _, _ => []
  | e :: rest, txId, d =>
    if e.1 = txId then (e.1, { e.2 with txDeadline := d }) :: rest
    else e :: setDeadline rest txId d

/-- `HTTPServer::getTx` (httpserver.cc:1497-1508): unknown tx ids fail
with `errNotFound`; a database-name mismatch (case-insensitive) fails
with `errLogic`; on success the transaction's deadline is renewed to
`now + txIdleTimeout_` and the map is returned updated. -/
def httpGetTx (m : List (String × TxInfo)) (dbName txId : String)
    (now txIdleTimeout : Nat) : Except ErrCode (List (String × TxInfo)) :=
  match findTx m txId with
  | none => .error .errNotFound
  | some info =>
    if iequals info.dbName dbName = false then .error .errLogic
    else .ok (setDeadline m txId (now + txIdleTimeout))

/-- `HTTPServer::removeExpiredTx` (httpserver.cc:1534-1554): every entry
whose deadline is `<= now` is erased from the map, and
`RollBackTransaction` is invoked on it when the system context can open
its database; the other entries are kept untouched.  Returns the
remaining map and the ids rolled back. -/
def removeExpiredTx (now : Nat) (dbOk : String → Bool) :
    List (String × TxInfo) → List (String × TxInfo) × List String
  | [] => ([], [])
  | e :: rest =>
    let tail := removeExpiredTx now dbOk rest
    if e.2.txDeadline ≤ now then
      (tail.1, if dbOk e.2.dbName then e.1 :: tail.2 else tail.2)
    else
      (e :: tail.1, tail.2)

/-! ## FuzzyIndexText<T>::Select (indextext/fuzzyindextext.cc:17-39)

Modelled from the spec: the n-gram engine `engine_.Search(dsl)` and its
`MergedData` are not under src/; per the spec the engine returns
"`MergedData` with per-doc score" and a maximum score, modelled as a
list of (virtual doc id, score) with scores in `ℚ` (idealizing the
source's `double`).  The virtual-document table `vdocs_` maps a virtual
doc id to the sorted id set of its key entry. -/

/-- One element of the engine's `MergedData`: virtual doc id and score
(`proc_`). -/
structure MergeInfo where
  vid : Nat
  proc : ℚ
deriving DecidableEq, Repr

/-- The engine's search result: merged per-doc data plus the maximum
per-doc score `max_proc_`. -/
structure FuzzySearchRes where
  data : List MergeInfo
  maxProc : ℚ
deriving DecidableEq, Repr

/-- The loop body of `FuzzyIndexText<T>::Select` (fuzzyindextext.cc:
29-36): scale each score by `coof`, skip documents below `minOkProc`,
and for the rest append the doc's id set to the merged ids and record
(id set, scaled score) in the fulltext context. -/
def fuzzyLoop (vdocs : Nat → List Nat) (minOkProc coof : ℚ) :
    List MergeInfo → List Nat × List (List Nat × ℚ)
  | [] => ([], [])
  | it :: rest =>
    let proc := it.proc * coof
    if proc < minOkProc then fuzzyLoop vdocs minOkProc coof rest
    else
      let tail := fuzzyLoop vdocs minOkProc coof rest
      (vdocs it.vid ++ tail.1, (vdocs it.vid, proc) :: tail.2)

/-- `FuzzyIndexText<T>::Select` (fuzzyindextext.cc:17-39): `coof` is 1
unless `max_proc_ > 100`, in which case it is `100 / max_proc_`; then
the loop scales, filters by `minOkProc`, and merges id sets. -/
def fuzzySelect (vdocs : Nat → List Nat) (minOkProc : ℚ)
    (res : FuzzySearchRes) : List Nat × List (List Nat × ℚ) :=
  let coof : ℚ := if 100 < res.maxProc then 100 / res.maxProc else 1
  fuzzyLoop vdocs minOkProc coof res.data

/-! ## Helper lemmas: RPC transaction table -/

/-- `findFreeSlot` returns the lowest free index: the slot it names is
free and every slot below it is busy. -/
theorem findFreeSlot_lowest (txs : List Bool) (i : Nat)
    (h : findFreeSlot txs = some i) :
    txs.get? i = some true ∧ ∀ j, j < i → txs.get? j = some false := by
  induction txs generalizing i with
  | nil => simp [findFreeSlot] at h
  | cons b rest ih =>
    by_cases hb : b
    · simp [findFreeSlot, hb] at h
      subst h
      exact ⟨by simp [hb], fun j hj => absurd hj (Nat.not_lt_zero j)⟩
    · simp [findFreeSlot, hb] at h
      obtain ⟨i2, h2, hi⟩ := h
      obtain ⟨hget, hlow⟩ := ih i2 h2
      subst hi
      refine ⟨by simpa using hget, ?_⟩
      intro j hj
      cases j with
      | zero => simpa using (by simpa using hb : b = false)
      | succ j2 => simpa using hlow j2 (Nat.lt_of_succ_lt_succ hj)

/-- A table whose slots are all busy has no free slot. -/
theorem findFreeSlot_none_of_all_busy (txs : List Bool)
    (h : ∀ b ∈ txs, b = false) : findFreeSlot txs = none := by
  induction txs with
  | nil => rfl
  | cons b rest ih =>
    have hb := h b (List.mem_cons_self b rest)
    simp [findFreeSlot, hb, ih fun x hx => h x (List.mem_cons_of_mem b hx)]

/-- If some slot `i` is free, `findFreeSlot` finds a free slot no higher
than `i`. -/
theorem findFreeSlot_le_of_free (txs : List Bool) (i : Nat)
    (h : txs.get? i = some true) : ∃ j, j ≤ i ∧ findFreeSlot txs = some j := by
  induction txs generalizing i with
  | nil => simp at h
  | cons b rest ih =>
    by_cases hb : b
    · exact ⟨0, Nat.zero_le i, by simp [findFreeSlot, hb]⟩
    · cases i with
      | zero =>
        simp at h
        exact absurd h hb
      | succ i2 =>
        obtain ⟨j2, hj2, hfind⟩ := ih i2 (by simpa using h)
        exact ⟨j2 + 1, Nat.succ_le_succ hj2, by simp [findFreeSlot, hb, hfind]⟩

/-! ## Claim theorems: C9, C4, C10, C3, C6, C7 -/

/-- Claim C9: acquiring the namespace write lock checks the read-only
flag and fails with `errNamespaceInvalidated` when it is set, the
storage lock does the same, and the read lock never performs the check,
so reads stay possible on a read-only namespace. -/
theorem C9_readonly_lock_checks :
    WLock true = .error .errNamespaceInvalidated ∧
    WLock false = .ok () ∧
    StorageLock true = .error .errNamespaceInvalidated ∧
    StorageLock false = .ok () ∧
    ∀ ro : Bool, RLock ro = .ok () :=
  ⟨rfl, rfl, rfl, rfl, fun _ => rfl⟩

/-- Claim C4: `Clone()` of an `IndexStore<key_string>` swaps
`expiredStrings_`: the clone ends with the source's pre-call
`expiredStrings_`, the source ends with none (the copy constructor does
not copy them), and the clone's `str_map`, `idx_data` and `memStat_`
equal the source's. -/
theorem C4_clone_swaps_expired_strings (st : StoreKS) :
    (Clone st).1.expiredStrings = st.expiredStrings ∧
    (Clone st).2.expiredStrings = [] ∧
    (copyCtor st).expiredStrings = [] ∧
    (Clone st).1.str_map = st.str_map ∧
    (Clone st).1.idx_data = st.idx_data ∧
    (Clone st).1.dataSize = st.dataSize ∧
    (Clone st).2.str_map = st.str_map ∧
    (Clone st).2.idx_data = st.idx_data ∧
    (Clone st).2.dataSize = st.dataSize :=
  ⟨rfl, rfl, rfl, rfl, rfl, rfl, rfl, rfl, rfl⟩

/-- Claim C10: for the string store index a Null key is a no-op:
`Upsert` of Null returns the empty Variant and the unchanged state,
`Delete` of Null is the identity, and `Delete` of an empty VariantArray
is exactly one `Delete` of Null, hence also the identity. -/
theorem C10_null_key_noop (st : StoreKS) :
    Upsert st .null = (.null, st) ∧
    Delete st .null = st ∧
    DeleteArray st [] = Delete st .null ∧
    DeleteArray st [] = st :=
  ⟨rfl, rfl, rfl, rfl⟩

/-- Claim C3 (counterexample): `SelectKey` with `CondAny` on a
non-array, non-sparse index does NOT fail when the select options
request distinct — it returns a comparator, contradicting the claim that
every `CondAny` call on such an index fails with `errParams`. -/
theorem C3_counterexample :
    SelectKey { isArray := false, isSparse := false } .CondAny { distinct := true } =
      .ok { comparators := [{ cond := .CondAny, distinct := true }], idsets := [] } ∧
    SelectKey { isArray := false, isSparse := false } .CondAny { distinct := true } ≠
      .error .errParams := by
  exact ⟨rfl, fun hc => by simp [SelectKey] at hc⟩

/-- Claim C3 (amended): `CondEmpty` on a non-array, non-sparse index
fails with `errParams`; `CondAny` on a non-array, non-sparse index fails
with `errParams` unless distinct is requested; every non-failing call
returns exactly one comparator and no id sets. -/
theorem C3_selectkey_errparams (opts : IndexOpts) (cond : CondType) (sopts : SelOpts) :
    (cond = .CondEmpty → opts.isArray = false → opts.isSparse = false →
       SelectKey opts cond sopts = .error .errParams) ∧
    (cond = .CondAny → opts.isArray = false → opts.isSparse = false →
       sopts.distinct = false → SelectKey opts cond sopts = .error .errParams) ∧
    (SelectKey opts cond sopts = .error .errParams ∨
       SelectKey opts cond sopts =
         .ok { comparators := [{ cond := cond, distinct := sopts.distinct }], idsets := [] }) ∧
    (¬((cond = .CondEmpty ∧ opts.isArray = false ∧ opts.isSparse = false) ∨
        (cond = .CondAny ∧ opts.isArray = false ∧ opts.isSparse = false ∧
          sopts.distinct = false)) →
       SelectKey opts cond sopts =
         .ok { comparators := [{ cond := cond, distinct := sopts.distinct }], idsets := [] }) := by
  refine ⟨?_, ?_, ?_, ?_⟩
  · intro h1 h2 h3
    simp [SelectKey, h1, h2, h3]
  · intro h1 h2 h3 h4
    simp [SelectKey, h1, h2, h3, h4]
  · unfold SelectKey
    split_ifs <;> simp
  · intro hn
    rw [not_or] at hn
    unfold SelectKey
    split_ifs with hA hB
    · exact absurd hA hn.1
    · exact absurd hB hn.2
    · rfl

/-- Witness for C3: the amended theorem applied at `CondEmpty` and at
`CondAny` without distinct on a plain index. -/
theorem C3_selectkey_errparams_witness :
    SelectKey { isArray := false, isSparse := false } .CondEmpty { distinct := false } =
      .error .errParams ∧
    SelectKey { isArray := false, isSparse := false } .CondAny { distinct := false } =
      .error .errParams := by
  have h1 := (C3_selectkey_errparams { isArray := false, isSparse := false }
    .CondEmpty { distinct := false }).1 rfl rfl rfl
  have h2 := (C3_selectkey_errparams { isArray := false, isSparse := false }
    .CondAny { distinct := false }).2.1 rfl rfl rfl rfl
  exact ⟨h1, h2⟩

/-- Claim C6: `addTx` fails with `errForbidden` exactly when the table
already holds `kMaxTxCount` (1024) slots, none free; otherwise it reuses
the lowest free slot or appends; `clearTx` frees the slot and its id
becomes reusable by a later `addTx`. -/
theorem C6_tx_table_bounded (txs : List Bool) :
    ((∀ b ∈ txs, b = false) → kMaxTxCount ≤ txs.length →
       addTx txs = .error .errForbidden) ∧
    (∀ i, findFreeSlot txs = some i →
       addTx txs = .ok (txs.set i false, i) ∧
       txs.get? i = some true ∧ ∀ j, j < i → txs.get? j = some false) ∧
    (findFreeSlot txs = none → txs.length < kMaxTxCount →
       addTx txs = .ok (txs ++ [false], txs.length)) ∧
    (∀ txId, txId < txs.length →
       clearTx txs txId = .ok (txs.set txId true) ∧
       ∃ j, j ≤ txId ∧
         addTx (txs.set txId true) = .ok ((txs.set txId true).set j false, j)) := by
  refine ⟨?_, ?_, ?_, ?_⟩
  · intro hbusy hlen
    have hnone := findFreeSlot_none_of_all_busy txs hbusy
    simp [addTx, hnone, hlen]
  · intro i hi
    exact ⟨by simp [addTx, hi], findFreeSlot_lowest txs i hi⟩
  · intro hnone hlen
    simp [addTx, hnone, Nat.not_le.mpr hlen]
  · intro txId hlt
    refine ⟨by simp [clearTx, Nat.not_le.mpr hlt], ?_⟩
    have hfree : (txs.set txId true).get? txId = some true := by
      rw [List.get?_eq_getElem?, List.getElem?_set_eq_of_lt]
      simpa using hlt
    obtain ⟨j, hj, hfind⟩ := findFreeSlot_le_of_free (txs.set txId true) txId hfree
    exact ⟨j, hj, by simp [addTx, hfind]⟩

/-- Witness for C6: a full all-busy table of 1024 slots is refused; a
table with free slot 1 reuses it; a full-but-small table appends;
clearing slot 0 of `[false]` makes id 0 reusable. -/
theorem C6_tx_table_bounded_witness :
    addTx (List.replicate 1024 false) = .error .errForbidden ∧
    addTx [false, true] = .ok ([false, false], 1) ∧
    addTx [false] = .ok ([false, false], 1) ∧
    clearTx [false] 0 = .ok [true] := by
  refine ⟨?_, ?_, ?_, ?_⟩
  · exact (C6_tx_table_bounded (List.replicate 1024 false)).1
      (fun b hb => (List.eq_of_mem_replicate hb))
      (by rw [List.length_replicate]; exact Nat.le_refl 1024)
  · exact ((C6_tx_table_bounded [false, true]).2.1 1 rfl).1
  · exact (C6_tx_table_bounded [false]).2.2.1 rfl (by simp [kMaxTxCount])
  · exact ((C6_tx_table_bounded [false]).2.2.2 0 (by simp)).1

/-- Claim C7: in `AddTxItem` (with a usable transaction item), a first
decode failing with `errTagsMissmatch` is retried exactly once on a
fresh item; the call succeeds (and the item joins the transaction) iff
the effective decode succeeds; any other first error, fresh-item
failure, or retry error is returned with nothing added. -/
theorem C7_addtxitem_retry (env : TxItemEnv) (h : env.trNewItemStatus = .errOK) :
    (env.firstDecode = .errTagsMissmatch → env.dbNewItemStatus = .errOK →
       env.retryDecode = .errOK → AddTxItem env = (.errOK, true)) ∧
    (env.firstDecode = .errTagsMissmatch → env.dbNewItemStatus = .errOK →
       env.retryDecode ≠ .errOK → AddTxItem env = (env.retryDecode, false)) ∧
    (env.firstDecode = .errTagsMissmatch → env.dbNewItemStatus ≠ .errOK →
       AddTxItem env = (env.dbNewItemStatus, false)) ∧
    (env.firstDecode ≠ .errTagsMissmatch → env.firstDecode ≠ .errOK →
       AddTxItem env = (env.firstDecode, false)) ∧
    (env.firstDecode = .errOK → AddTxItem env = (.errOK, true)) := by
  refine ⟨?_, ?_, ?_, ?_, ?_⟩
  · intro h1 h2 h3
    simp [AddTxItem, h, h1, h2, h3]
  · intro h1 h2 h3
    simp [AddTxItem, h, h1, h2, h3]
  · intro h1 h2
    simp [AddTxItem, h, h1, h2]
  · intro h1 h2
    have hne : env.firstDecode ≠ ErrCode.errTagsMissmatch := h1
    simp [AddTxItem, h, hne, h2]
  · intro h1
    have hne : env.firstDecode ≠ ErrCode.errTagsMissmatch := by
      rw [h1]; decide
    simp [AddTxItem, h, hne, h1]

/-- Witness for C7: a tags-mismatch first decode whose retry succeeds is
accepted; a retry that fails again with tags mismatch is returned. -/
theorem C7_addtxitem_retry_witness :
    AddTxItem { trNewItemStatus := .errOK, firstDecode := .errTagsMissmatch,
                dbNewItemStatus := .errOK, retryDecode := .errOK } = (.errOK, true) ∧
    AddTxItem { trNewItemStatus := .errOK, firstDecode := .errTagsMissmatch,
                dbNewItemStatus := .errOK, retryDecode := .errTagsMissmatch } =
      (.errTagsMissmatch, false) := by
  constructor
  · exact (C7_addtxitem_retry _ rfl).1 rfl rfl rfl
  · exact (C7_addtxitem_retry _ rfl).2.1 rfl rfl (by decide)

/-! ## Helper lemmas: HTTP transaction map -/

/-- `setDeadline` rewrites exactly the deadline of the looked-up
entry. -/
theorem findTx_setDeadline_self (m : List (String × TxInfo)) (txId : String)
    (d : Nat) (info : TxInfo) (h : findTx m txId = some info) :
    findTx (setDeadline m txId d) txId = some { info with txDeadline := d } := by
  induction m with
  | nil => simp [findTx] at h
  | cons e rest ih =>
    by_cases he : e.1 = txId
    · simp [findTx, he] at h
      simp [findTx, setDeadline, he, h]
    · simp [findTx, he] at h
      simp [findTx, setDeadline, he, ih h]

/-- `removeExpiredTx` keeps exactly the entries whose deadline lies in
the future and rolls back exactly the expired entries whose database the
system context can open. -/
theorem removeExpiredTx_spec (now : Nat) (dbOk : String → Bool)
    (m : List (String × TxInfo)) :
    (removeExpiredTx now dbOk m).1 =
      m.filter (fun e => !decide (e.2.txDeadline ≤ now)) ∧
    (removeExpiredTx now dbOk m).2 =
      (m.filter (fun e => decide (e.2.txDeadline ≤ now) && dbOk e.2.dbName)).map
        (fun e => e.1) := by
  induction m with
  | nil => exact ⟨rfl, rfl⟩
  | cons e rest ih =>
    by_cases hd : e.2.txDeadline ≤ now
    · by_cases hok : dbOk e.2.dbName
      · simp [removeExpiredTx, hd, hok, ih.1, ih.2]
      · simp [removeExpiredTx, hd, hok, ih.1, ih.2]
    · simp [removeExpiredTx, hd, ih.1, ih.2]

/-- Claim C8: every successful `getTx` renews the transaction's deadline
to `now + txIdleTimeout_`; `removeExpiredTx` never rolls back a
transaction whose deadline is still in the future and keeps it in the
map; and — when the system context can open the databases — every
transaction whose deadline has passed is rolled back and removed. -/
theorem C8_http_tx_idle_timeout (m : List (String × TxInfo))
    (dbName txId : String) (now txIdleTimeout : Nat) (dbOk : String → Bool) :
    (∀ info, findTx m txId = some info → iequals info.dbName dbName = true →
       httpGetTx m dbName txId now txIdleTimeout =
         .ok (setDeadline m txId (now + txIdleTimeout)) ∧
       findTx (setDeadline m txId (now + txIdleTimeout)) txId =
         some { info with txDeadline := now + txIdleTimeout }) ∧
    (∀ e ∈ m, now < e.2.txDeadline →
       e ∈ (removeExpiredTx now dbOk m).1) ∧
    (∀ id, id ∈ (removeExpiredTx now dbOk m).2 →
       ∃ info, (id, info) ∈ m ∧ info.txDeadline ≤ now ∧ dbOk info.dbName = true) ∧
    ((∀ d, dbOk d = true) → ∀ e ∈ m, e.2.txDeadline ≤ now →
       e.1 ∈ (removeExpiredTx now dbOk m).2 ∧ e ∉ (removeExpiredTx now dbOk m).1) := by
  obtain ⟨hkeep, hroll⟩ := removeExpiredTx_spec now dbOk m
  refine ⟨?_, ?_, ?_, ?_⟩
  · intro info hfind hiq
    refine ⟨?_, findTx_setDeadline_self m txId (now + txIdleTimeout) info hfind⟩
    simp [httpGetTx, hfind, hiq]
  · intro e he hlt
    rw [hkeep, List.mem_filter]
    exact ⟨he, by simpa using Nat.not_le.mpr hlt⟩
  · intro id hid
    rw [hroll] at hid
    obtain ⟨e, he, heq⟩ := List.mem_map.mp hid
    rw [List.mem_filter] at he
    obtain ⟨hmem, hcond⟩ := he
    rw [Bool.and_eq_true, decide_eq_true_eq] at hcond
    exact ⟨e.2, by rw [← heq]; simpa using hmem, hcond.1, hcond.2⟩
  · intro hall e he hd
    constructor
    · rw [hroll]
      exact List.mem_map.mpr ⟨e, List.mem_filter.mpr ⟨he, by simp [hd, hall]⟩, rfl⟩
    · rw [hkeep]
      intro hcontra
      rw [List.mem_filter] at hcontra
      simpa [hd] using hcontra.2

/-- Witness for C8: a two-entry map at time 10: `t1` (deadline 5) is
expired — rolled back and dropped; `t2` (deadline 20) is kept, and a
`getTx` on it renews its deadline to 17. -/
theorem C8_http_tx_idle_timeout_witness :
    httpGetTx [("t1", ⟨"db", 5⟩), ("t2", ⟨"db", 20⟩)] "db" "t2" 10 7 =
      .ok [("t1", ⟨"db", 5⟩), ("t2", ⟨"db", 17⟩)] ∧
    ("t2", (⟨"db", 20⟩ : TxInfo)) ∈
      (removeExpiredTx 10 (fun _ => true) [("t1", ⟨"db", 5⟩), ("t2", ⟨"db", 20⟩)]).1 ∧
    "t1" ∈ (removeExpiredTx 10 (fun _ => true) [("t1", ⟨"db", 5⟩), ("t2", ⟨"db", 20⟩)]).2 ∧
    ("t1", (⟨"db", 5⟩ : TxInfo)) ∉
      (removeExpiredTx 10 (fun _ => true) [("t1", ⟨"db", 5⟩), ("t2", ⟨"db", 20⟩)]).1 := by
  have h := C8_http_tx_idle_timeout [("t1", ⟨"db", 5⟩), ("t2", ⟨"db", 20⟩)]
    "db" "t2" 10 7 (fun _ => true)
  have h1 := (h.1 ⟨"db", 20⟩ (by simp [findTx]) (by simp [iequals])).1
  have h2 := h.2.1 ("t2", ⟨"db", 20⟩) (by simp) (by simp)
  have h3 := h.2.2.2 (fun d => rfl) ("t1", ⟨"db", 5⟩) (by simp) (by simp)
  refine ⟨?_, h2, h3.1, h3.2⟩
  rw [h1]
  simp [setDeadline]

/-! ## Helper lemmas: fuzzy full-text select -/

/-- Closed form of the select loop: keep the documents whose scaled
score is at least `minOkProc`, in order; merge their id sets and record
(id set, scaled score) pairs. -/
theorem fuzzyLoop_closed_form (vdocs : Nat → List Nat) (minOkProc coof : ℚ)
    (data : List MergeInfo) :
    fuzzyLoop vdocs minOkProc coof data =
      (((data.filter (fun it => !decide (it.proc * coof < minOkProc))).map
          (fun it => vdocs it.vid)).flatten,
       (data.filter (fun it => !decide (it.proc * coof < minOkProc))).map
          (fun it => (vdocs it.vid, it.proc * coof))) := by
  induction data with
  | nil => rfl
  | cons it rest ih =>
    by_cases hlt : it.proc * coof < minOkProc
    · simp [fuzzyLoop, hlt, ih]
    · simp [fuzzyLoop, hlt, ih]

/-- Claim C5: in fuzzy full-text `Select`, when the engine's maximum
per-document score exceeds 100 each score is scaled by
`100 / max_proc_` (so a document scoring the maximum is rescaled to
exactly 100 and no document exceeds 100); when the maximum is at most
100 the scores are unchanged; and a document's ids enter the merged
`IdSet` and the fulltext context exactly when its (possibly scaled)
score is at least `minOkProc`. -/
theorem C5_fuzzy_select_normalization (vdocs : Nat → List Nat) (minOkProc : ℚ)
    (res : FuzzySearchRes) :
    (fuzzySelect vdocs minOkProc res =
       (((res.data.filter (fun it =>
            !decide (it.proc * (if 100 < res.maxProc then 100 / res.maxProc else 1) <
              minOkProc))).map (fun it => vdocs it.vid)).flatten,
        (res.data.filter (fun it =>
            !decide (it.proc * (if 100 < res.maxProc then 100 / res.maxProc else 1) <
              minOkProc))).map (fun it =>
          (vdocs it.vid, it.proc * (if 100 < res.maxProc then 100 / res.maxProc else 1))))) ∧
    (res.maxProc ≤ 100 →
       fuzzySelect vdocs minOkProc res =
         (((res.data.filter (fun it => !decide (it.proc < minOkProc))).map
             (fun it => vdocs it.vid)).flatten,
          (res.data.filter (fun it => !decide (it.proc < minOkProc))).map
             (fun it => (vdocs it.vid, it.proc)))) ∧
    (100 < res.maxProc → (∀ it ∈ res.data, it.proc ≤ res.maxProc) →
       (∀ it ∈ res.data, it.proc * (100 / res.maxProc) ≤ 100) ∧
       (∀ it ∈ res.data, it.proc = res.maxProc →
          it.proc * (100 / res.maxProc) = 100)) := by
  refine ⟨?_, ?_, ?_⟩
  · unfold fuzzySelect
    exact fuzzyLoop_closed_form vdocs minOkProc _ res.data
  · intro hle
    have hnot : ¬(100 < res.maxProc) := not_lt.mpr hle
    unfold fuzzySelect
    rw [if_neg hnot]
    simpa using fuzzyLoop_closed_form vdocs minOkProc 1 res.data
  · intro hgt hbound
    have hpos : (0 : ℚ) < res.maxProc := lt_trans (by norm_num) hgt
    have hne : res.maxProc ≠ 0 := ne_of_gt hpos
    have hcpos : (0 : ℚ) ≤ 100 / res.maxProc := le_of_lt (div_pos (by norm_num) hpos)
    constructor
    · intro it hit
      calc it.proc * (100 / res.maxProc)
          ≤ res.maxProc * (100 / res.maxProc) :=
            mul_le_mul_of_nonneg_right (hbound it hit) hcpos
        _ = 100 := by
            field_simp
    · intro it hit hmax
      rw [hmax]
      field_simp

/-- Witness for C5: engine result with scores 150 and 90 and maximum
150 (> 100): score 150 is rescaled to exactly 100, 90 stays at most
100; with maximum 90 (≤ 100) scores pass through unscaled; and with
`minOkProc = 70` the scaled 60 is filtered while the scaled 100 is
merged. -/
theorem C5_fuzzy_select_normalization_witness :
    (150 : ℚ) * (100 / 150) = 100 ∧
    (90 : ℚ) * (100 / 150) ≤ 100 ∧
    fuzzySelect (fun i => [i]) 70 ⟨[⟨3, 150⟩, ⟨4, 90⟩], 150⟩ =
      ([3], [([3], 100)]) ∧
    fuzzySelect (fun i => [i]) 70 ⟨[⟨3, 80⟩], 90⟩ = ([3], [([3], 80)]) := by
  have h := C5_fuzzy_select_normalization (fun i => [i]) 70 ⟨[⟨3, 150⟩, ⟨4, 90⟩], 150⟩
  have h3 := h.2.2 (by norm_num)
    (by intro it hit; fin_cases hit <;> norm_num)
  have hmaxeq := h3.2 ⟨3, 150⟩ (List.mem_cons_self _ _) rfl
  have hbnd := h3.1 ⟨4, 90⟩ (List.mem_cons_of_mem _ (List.mem_cons_self _ _))
  have hsel := h.1
  have hle := (C5_fuzzy_select_normalization (fun i => [i]) 70 ⟨[⟨3, 80⟩], 90⟩).2.1
    (by norm_num)
  refine ⟨by simpa using hmaxeq, by simpa using hbnd, ?_, ?_⟩
  · rw [hsel]
    norm_num [List.filter, List.flatten]
  · rw [hle]
    norm_num [List.filter, List.flatten]

/-! ## Helper lemmas: the interning map of IndexStore<key_string> -/

theorem findKS_eq_none_iff (m : List (KString × Nat)) (s : String) :
    findKS m s = none ↔ ∀ e ∈ m, e.1.val ≠ s := by
  induction m with
  | nil => simp [findKS]
  | cons e rest ih =>
    by_cases he : e.1.val = s
    · simp [findKS, he]
    · simp [findKS, he, ih]

theorem findKS_mem (m : List (KString × Nat)) (s : String) (e : KString × Nat)
    (h : findKS m s = some e) : e ∈ m ∧ e.1.val = s := by
  induction m with
  | nil => simp [findKS] at h
  | cons e2 rest ih =>
    by_cases he : e2.1.val = s
    · simp [findKS, he] at h
      subst h
      exact ⟨List.mem_cons_self e2 rest, he⟩
    · simp [findKS, he] at h
      obtain ⟨hm, hv⟩ := ih h
      exact ⟨List.mem_cons_of_mem e2 hm, hv⟩


/-! ### Branch equations for Upsert and Delete -/

theorem Upsert_found (st : StoreKS) (k stored : KString) (cnt : Nat)
    (hf : findKS st.str_map k.val = some (stored, cnt)) :
    Upsert st (.str k) =
      (.str stored, { st with str_map := setCountKS st.str_map k.val (cnt + 1) }) := by
  simp only [Upsert, hf]

theorem Upsert_absent (st : StoreKS) (k : KString)
    (hf : findKS st.str_map k.val = none) :
    Upsert st (.str k) =
      (.str k,
       { st with
         str_map := st.str_map ++ [(k, 1)]
         dataSize := st.dataSize + sizeofStrMapNode + kstringHeapBytes k }) := by
  simp only [Upsert, hf]

theorem Delete_absent (st : StoreKS) (k : KString)
    (hf : findKS st.str_map k.val = none) : Delete st (.str k) = st := by
  simp only [Delete, hf]

theorem Delete_expire (st : StoreKS) (k stored : KString) (cnt : Nat)
    (hf : findKS st.str_map k.val = some (stored, cnt)) (hcnt : cnt ≤ 1) :
    Delete st (.str k) =
      { st with
        str_map := eraseKS st.str_map k.val
        dataSize := st.dataSize - sizeofStrMapNode + sizeofExpiredSlot
        expiredStringsMemStat := st.expiredStringsMemStat + kstringHeapBytes stored
        expiredStrings := st.expiredStrings ++ [stored] } := by
  simp only [Delete, hf]
  interval_cases cnt <;> norm_num

theorem Delete_decrement (st : StoreKS) (k stored : KString) (cnt : Nat)
    (hf : findKS st.str_map k.val = some (stored, cnt)) (h2 : 2 ≤ cnt) :
    Delete st (.str k) =
      { st with str_map := setCountKS st.str_map k.val (cnt - 1) } := by
  have hne : cnt ≠ 0 := by omega
  have hne2 : ¬(cnt - 1 = 0) := by omega
  simp only [Delete, hf, if_pos hne, ne_eq, hne, not_false_iff, if_true, if_neg hne2]

/-! ### find / erase / setCount interaction -/

theorem findKS_setCountKS_self (m : List (KString × Nat)) (s : String)
    (c : Nat) (stored : KString) (c0 : Nat)
    (h : findKS m s = some (stored, c0)) :
    findKS (setCountKS m s c) s = some (stored, c) := by
  induction m with
  | nil => simp [findKS] at h
  | cons e rest ih =>
    by_cases he : e.1.val = s
    · simp only [findKS, if_pos he, Option.some.injEq] at h
      subst h
      have he2 : stored.val = s := he
      simp [setCountKS, findKS, he2]
    · simp only [findKS, if_neg he] at h
      simp [setCountKS, findKS, he, ih h]

theorem findKS_setCountKS_ne (m : List (KString × Nat)) (t s : String)
    (c : Nat) (h : t ≠ s) : findKS (setCountKS m t c) s = findKS m s := by
  induction m with
  | nil => rfl
  | cons e rest ih =>
    by_cases het : e.1.val = t
    · have hes : ¬(e.1.val = s) := by rw [het]; exact h
      simp [setCountKS, findKS, het, hes, h]
    · by_cases hes : e.1.val = s
      · simp [setCountKS, findKS, het, hes, Ne.symm h]
      · simp [setCountKS, findKS, het, hes, ih]

theorem findKS_eraseKS_ne (m : List (KString × Nat)) (t s : String)
    (h : t ≠ s) : findKS (eraseKS m t) s = findKS m s := by
  induction m with
  | nil => rfl
  | cons e rest ih =>
    by_cases het : e.1.val = t
    · have hes : ¬(e.1.val = s) := by rw [het]; exact h
      simp [eraseKS, findKS, het, hes, h]
    · by_cases hes : e.1.val = s
      · simp [eraseKS, findKS, het, hes, Ne.symm h]
      · simp [eraseKS, findKS, het, hes, ih]

theorem eraseKS_sublist (m : List (KString × Nat)) (s : String) :
    List.Sublist (eraseKS m s) m := by
  induction m with
  | nil => simp [eraseKS]
  | cons e rest ih =>
    by_cases he : e.1.val = s
    · rw [eraseKS, if_pos he]
      exact List.sublist_cons_self e rest
    · rw [eraseKS, if_neg he]
      exact List.Sublist.cons₂ e ih

theorem findKS_eraseKS_self (m : List (KString × Nat)) (s : String)
    (hnd : (m.map (fun e => e.1.val)).Nodup) :
    findKS (eraseKS m s) s = none := by
  induction m with
  | nil => rfl
  | cons e rest ih =>
    rw [List.map_cons, List.nodup_cons] at hnd
    by_cases he : e.1.val = s
    · rw [findKS_eq_none_iff]
      intro e2 he2 hv
      have he2r : e2 ∈ rest := by simpa [eraseKS, he] using he2
      have hs : s ∈ rest.map (fun x => x.1.val) := by
        rw [← hv]
        exact List.mem_map_of_mem (fun x => x.1.val) he2r
      rw [he] at hnd
      exact hnd.1 hs
    · simp [eraseKS, he, findKS, ih hnd.2]

theorem findKS_append_some (m l : List (KString × Nat)) (s : String)
    (e : KString × Nat) (h : findKS m s = some e) :
    findKS (m ++ l) s = some e := by
  induction m with
  | nil => simp [findKS] at h
  | cons e2 rest ih =>
    by_cases he : e2.1.val = s
    · simp only [findKS, if_pos he, Option.some.injEq] at h
      subst h
      simp [findKS, he]
    · simp only [findKS, if_neg he] at h
      simp [findKS, he, ih h]

theorem findKS_append_none (m l : List (KString × Nat)) (s : String)
    (h : findKS m s = none) : findKS (m ++ l) s = findKS l s := by
  induction m with
  | nil => rfl
  | cons e2 rest ih =>
    by_cases he : e2.1.val = s
    · simp [findKS, he] at h
    · simp only [findKS, if_neg he] at h
      simp [findKS, he, ih h]

theorem keys_setCountKS (m : List (KString × Nat)) (t : String) (c : Nat) :
    (setCountKS m t c).map (fun e => e.1.val) = m.map (fun e => e.1.val) := by
  induction m with
  | nil => rfl
  | cons e rest ih =>
    by_cases he : e.1.val = t
    · simp [setCountKS, he]
    · simp [setCountKS, he, ih]

theorem mem_setCountKS (m : List (KString × Nat)) (t : String) (c : Nat)
    (e : KString × Nat) (h : e ∈ setCountKS m t c) : e ∈ m ∨ e.2 = c := by
  induction m with
  | nil => simp [setCountKS] at h
  | cons e2 rest ih =>
    by_cases he : e2.1.val = t
    · simp only [setCountKS, if_pos he, List.mem_cons] at h
      rcases h with h | h
      · right; rw [h]
      · left; exact List.mem_cons_of_mem e2 h
    · simp only [setCountKS, if_neg he, List.mem_cons] at h
      rcases h with h | h
      · left; rw [h]; exact List.mem_cons_self e2 rest
      · rcases ih h with h2 | h2
        · left; exact List.mem_cons_of_mem e2 h2
        · right; exact h2

/-! ### WF preservation -/

theorem wf_upsert (st : StoreKS) (v : KVariant) (h : WFmap st.str_map) :
    WFmap (Upsert st v).2.str_map := by
  match v with
  | .null => exact h
  | .str k =>
    cases hf : findKS st.str_map k.val with
    | some e =>
      obtain ⟨stored, cnt⟩ := e
      rw [Upsert_found st k stored cnt hf]
      constructor
      · simpa [keys_setCountKS] using h.1
      · intro e2 he2
        rcases mem_setCountKS _ _ _ _ he2 with h2 | h2
        · exact h.2 e2 h2
        · rw [h2]; exact Nat.succ_le_succ (Nat.zero_le cnt)
    | none =>
      rw [Upsert_absent st k hf]
      constructor
      · simp only [List.map_append]
        rw [List.nodup_append]
        refine ⟨h.1, by simp, ?_⟩
        intro a ha
        simp only [List.map_cons, List.map_nil, List.mem_singleton]
        intro heq
        rw [findKS_eq_none_iff] at hf
        obtain ⟨e2, he2, hv2⟩ := List.mem_map.mp ha
        exact hf e2 he2 (by rw [hv2, heq])
      · intro e2 he2
        rcases List.mem_append.mp he2 with h2 | h2
        · exact h.2 e2 h2
        · simp only [List.mem_singleton] at h2
          rw [h2]

theorem wf_delete (st : StoreKS) (v : KVariant) (h : WFmap st.str_map) :
    WFmap (Delete st v).str_map := by
  match v with
  | .null => exact h
  | .str k =>
    cases hf : findKS st.str_map k.val with
    | none =>
      rw [Delete_absent st k hf]
      exact h
    | some e =>
      obtain ⟨stored, cnt⟩ := e
      have hcnt : 1 ≤ cnt := h.2 (stored, cnt) (findKS_mem _ _ _ hf).1
      by_cases h1 : cnt = 1
      · subst h1
        rw [Delete_expire st k stored 1 hf (Nat.le_refl 1)]
        constructor
        · exact h.1.sublist ((eraseKS_sublist st.str_map k.val).map (fun e => e.1.val))
        · intro e2 he2
          exact h.2 e2 ((eraseKS_sublist st.str_map k.val).subset he2)
      · have h2 : 2 ≤ cnt := by omega
        rw [Delete_decrement st k stored cnt hf h2]
        constructor
        · simpa [keys_setCountKS] using h.1
        · intro e2 he2
          rcases mem_setCountKS _ _ _ _ he2 with hm | hm
          · exact h.2 e2 hm
          · rw [hm]; omega

theorem wf_step (st : StoreKS) (op : StoreOp) (h : WFmap st.str_map) :
    WFmap (stepOp st op).str_map := by
  match op with
  | .ups k => exact wf_upsert st (.str k) h
  | .del v => exact wf_delete st v h


/-! ### countOf / storedOf step lemmas -/

theorem findKS_upsert_ne (st : StoreKS) (k : KString) (s : String)
    (h : k.val ≠ s) :
    findKS (Upsert st (.str k)).2.str_map s = findKS st.str_map s := by
  cases hf : findKS st.str_map k.val with
  | some e =>
    obtain ⟨stored, cnt⟩ := e
    rw [Upsert_found st k stored cnt hf]
    exact findKS_setCountKS_ne st.str_map k.val s (cnt + 1) h
  | none =>
    rw [Upsert_absent st k hf]
    cases hfs : findKS st.str_map s with
    | some e2 => exact findKS_append_some st.str_map [(k, 1)] s e2 hfs
    | none =>
      rw [findKS_append_none st.str_map [(k, 1)] s hfs]
      simp [findKS, h]

theorem findKS_delete_ne (st : StoreKS) (k : KString) (s : String)
    (h : k.val ≠ s) :
    findKS (Delete st (.str k)).str_map s = findKS st.str_map s := by
  cases hf : findKS st.str_map k.val with
  | none => rw [Delete_absent st k hf]
  | some e =>
    obtain ⟨stored, cnt⟩ := e
    by_cases hc : cnt ≤ 1
    · rw [Delete_expire st k stored cnt hf hc]
      exact findKS_eraseKS_ne st.str_map k.val s h
    · rw [Delete_decrement st k stored cnt hf (by omega)]
      exact findKS_setCountKS_ne st.str_map k.val s (cnt - 1) h

theorem countOf_upsert_self (st : StoreKS) (k : KString) :
    countOf (Upsert st (.str k)).2 k.val = countOf st k.val + 1 := by
  cases hf : findKS st.str_map k.val with
  | some e =>
    obtain ⟨stored, cnt⟩ := e
    rw [Upsert_found st k stored cnt hf]
    unfold countOf
    rw [findKS_setCountKS_self st.str_map k.val (cnt + 1) stored cnt hf, hf]
  | none =>
    rw [Upsert_absent st k hf]
    unfold countOf
    rw [findKS_append_none st.str_map [(k, 1)] k.val hf, hf]
    simp [findKS]

theorem storedOf_step_pres (st : StoreKS) (op : StoreOp) (s : String)
    (stored : KString) (c : Nat) (hwf : WFmap st.str_map)
    (hbefore : findKS st.str_map s = some (stored, c))
    (hafter : (findKS (stepOp st op).str_map s).isSome = true) :
    ∃ c2, findKS (stepOp st op).str_map s = some (stored, c2) := by
  match op with
  | .ups k =>
    by_cases hk : k.val = s
    · subst hk
      rw [stepOp, Upsert_found st k stored c hbefore]
      exact ⟨c + 1, findKS_setCountKS_self st.str_map k.val (c + 1) stored c hbefore⟩
    · exact ⟨c, by rw [stepOp, findKS_upsert_ne st k s hk, hbefore]⟩
  | .del .null => exact ⟨c, by rw [stepOp, Delete, hbefore]⟩
  | .del (.str k) =>
    by_cases hk : k.val = s
    · subst hk
      have hcnt : 1 ≤ c := hwf.2 (stored, c) (findKS_mem _ _ _ hbefore).1
      by_cases h1 : c = 1
      · subst h1
        rw [stepOp, Delete_expire st k stored 1 hbefore (Nat.le_refl 1)] at hafter
        rw [findKS_eraseKS_self st.str_map k.val hwf.1] at hafter
        simp at hafter
      · rw [stepOp, Delete_decrement st k stored c hbefore (by omega)]
        exact ⟨c - 1, findKS_setCountKS_self st.str_map k.val (c - 1) stored c hbefore⟩
    · exact ⟨c, by rw [stepOp, findKS_delete_ne st k s hk, hbefore]⟩

theorem storedOf_run_pres (s : String) (ops : List StoreOp) :
    ∀ (st : StoreKS) (stored : KString) (c : Nat), WFmap st.str_map →
      findKS st.str_map s = some (stored, c) →
      presentThrough st s ops = true →
      ∃ c2, findKS (runOps st ops).str_map s = some (stored, c2) := by
  induction ops with
  | nil => exact fun st stored c _ hb _ => ⟨c, hb⟩
  | cons op rest ih =>
    intro st stored c hwf hb hpres
    rw [presentThrough, Bool.and_eq_true] at hpres
    obtain ⟨c2, hstep⟩ := storedOf_step_pres st op s stored c hwf hb hpres.1
    exact ih (stepOp st op) stored c2 (wf_step st op hwf) hstep hpres.2

theorem countOf_step_ups (st : StoreKS) (k : KString) (s : String) :
    countOf (stepOp st (.ups k)) s = countOf st s + (if k.val = s then 1 else 0) := by
  by_cases hk : k.val = s
  · subst hk
    simpa [stepOp] using countOf_upsert_self st k
  · unfold stepOp countOf
    rw [findKS_upsert_ne st k s hk]
    simp [hk]

theorem countOf_step_del (st : StoreKS) (k : KString) (s : String)
    (hwf : WFmap st.str_map) :
    countOf (Delete st (.str k)) s +
      (if k.val = s ∧ (findKS st.str_map s).isSome then 1 else 0) = countOf st s := by
  by_cases hk : k.val = s
  · subst hk
    cases hf : findKS st.str_map k.val with
    | none =>
      rw [Delete_absent st k hf]
      simp [hf]
    | some e =>
      obtain ⟨stored, cnt⟩ := e
      have hcnt : 1 ≤ cnt := hwf.2 (stored, cnt) (findKS_mem _ _ _ hf).1
      by_cases h1 : cnt = 1
      · subst h1
        rw [Delete_expire st k stored 1 hf (Nat.le_refl 1)]
        unfold countOf
        simp only [findKS_eraseKS_self st.str_map k.val hwf.1, hf]
        simp
      · rw [Delete_decrement st k stored cnt hf (by omega)]
        unfold countOf
        rw [findKS_setCountKS_self st.str_map k.val (cnt - 1) stored cnt hf, hf]
        simp
        omega
  · unfold countOf
    rw [findKS_delete_ne st k s hk]
    simp [hk]

theorem count_accounting (s : String) (ops : List StoreOp) :
    ∀ st : StoreKS, WFmap st.str_map →
      countOf (runOps st ops) s + effDelCount st s ops =
        countOf st s + upsCount s ops := by
  induction ops with
  | nil => intro st _; simp [runOps, effDelCount, upsCount]
  | cons op rest ih =>
    intro st hwf
    have hih := ih (stepOp st op) (wf_step st op hwf)
    match op with
    | .ups k =>
      have hstep := countOf_step_ups st k s
      simp only [runOps, effDelCount, upsCount]
      omega
    | .del .null =>
      have hstep : stepOp st (.del .null) = st := rfl
      simp only [runOps, effDelCount, upsCount]
      rw [hstep] at hih ⊢
      omega
    | .del (.str k) =>
      have hstep : countOf (stepOp st (.del (.str k))) s +
          (if k.val = s ∧ (findKS st.str_map s).isSome then 1 else 0) =
            countOf st s :=
        countOf_step_del st k s hwf
      simp only [runOps, effDelCount, upsCount]
      omega



/-! ## Claim theorems: C1, C2 -/

/-- Claim C1: `Delete(key, id)` on the string store index is idempotent
and silent on missing keys; when a key's reference count reaches zero
the key is erased from `str_map` and appended to `expiredStrings_`
rather than freed (so a repeated delete changes nothing further), and
only `RemoveExpiredStrings()` empties `expiredStrings_` — `Delete`
itself only ever appends to it. -/
theorem C1_delete_missing_silent (st : StoreKS) (k : KString) :
    (findKS st.str_map k.val = none → Delete st (.str k) = st) ∧
    (∀ stored, findKS st.str_map k.val = some (stored, 1) →
       (Delete st (.str k)).str_map = eraseKS st.str_map k.val ∧
       (Delete st (.str k)).expiredStrings = st.expiredStrings ++ [stored]) ∧
    (WFmap st.str_map → ∀ stored, findKS st.str_map k.val = some (stored, 1) →
       findKS (Delete st (.str k)).str_map k.val = none ∧
       Delete (Delete st (.str k)) (.str k) = Delete st (.str k)) ∧
    (∀ v : KVariant, ∃ tail,
       (Delete st v).expiredStrings = st.expiredStrings ++ tail) ∧
    (RemoveExpiredStrings st).expiredStrings = [] := by
  refine ⟨?_, ?_, ?_, ?_, rfl⟩
  · intro hf
    exact Delete_absent st k hf
  · intro stored hf
    rw [Delete_expire st k stored 1 hf (Nat.le_refl 1)]
    exact ⟨rfl, rfl⟩
  · intro hwf stored hf
    have hmap : (Delete st (.str k)).str_map = eraseKS st.str_map k.val := by
      rw [Delete_expire st k stored 1 hf (Nat.le_refl 1)]
    have hnone : findKS (Delete st (.str k)).str_map k.val = none := by
      rw [hmap]
      exact findKS_eraseKS_self st.str_map k.val hwf.1
    exact ⟨hnone, Delete_absent (Delete st (.str k)) k hnone⟩
  · intro v
    match v with
    | .null => exact ⟨[], by simp [Delete]⟩
    | .str k2 =>
      cases hf : findKS st.str_map k2.val with
      | none => exact ⟨[], by rw [Delete_absent st k2 hf]; simp⟩
      | some e =>
        obtain ⟨stored, cnt⟩ := e
        by_cases hc : cnt ≤ 1
        · exact ⟨[stored], by rw [Delete_expire st k2 stored cnt hf hc]⟩
        · exact ⟨[], by rw [Delete_decrement st k2 stored cnt hf (by omega)]; simp⟩

/-- Witness for C1: on a store holding `"a"` with count 1, deleting the
absent key `"b"` is the identity; deleting `"a"` moves the interned
string to `expiredStrings_`; deleting `"a"` again changes nothing; and
`RemoveExpiredStrings` empties `expiredStrings_`. -/
theorem C1_delete_missing_silent_witness :
    Delete oneKeyA (.str ⟨1, "b"⟩) = oneKeyA ∧
    (Delete oneKeyA (.str ⟨2, "a"⟩)).expiredStrings = [⟨0, "a"⟩] ∧
    Delete (Delete oneKeyA (.str ⟨2, "a"⟩)) (.str ⟨2, "a"⟩) =
      Delete oneKeyA (.str ⟨2, "a"⟩) ∧
    (RemoveExpiredStrings (Delete oneKeyA (.str ⟨2, "a"⟩))).expiredStrings = [] := by
  have h1 := (C1_delete_missing_silent oneKeyA ⟨1, "b"⟩).1 (by decide)
  have h := C1_delete_missing_silent oneKeyA ⟨2, "a"⟩
  have h2 := (h.2.1 ⟨0, "a"⟩ (by decide)).2
  have h3 := (h.2.2.1 ⟨by decide, by decide⟩ ⟨0, "a"⟩ (by decide)).2
  have h4 := (C1_delete_missing_silent
    (Delete oneKeyA (.str ⟨2, "a"⟩)) ⟨2, "a"⟩).2.2.2.2
  exact ⟨h1, h2, h3, h4⟩

/-- Claim C2 (counterexample): the trace upsert "a", delete "a",
delete "a", upsert "a" on an empty string store.  The second delete
misses (the key expired), so the final stored count is 1 while the
claim's "Upserts minus Deletes" is 2 - 2 = 0; and the two upserts return
Variants holding distinct interned strings (the first interned
allocation was expired in between), not the same one. -/
theorem C2_counterexample :
    (Upsert emptyKS (.str ⟨0, "a"⟩)).1 = .str ⟨0, "a"⟩ ∧
    (Upsert (Delete (Delete (Upsert emptyKS (.str ⟨0, "a"⟩)).2
        (.str ⟨5, "a"⟩)) (.str ⟨6, "a"⟩)) (.str ⟨1, "a"⟩)).1 = .str ⟨1, "a"⟩ ∧
    (KVariant.str ⟨1, "a"⟩ ≠ KVariant.str ⟨0, "a"⟩) ∧
    countOf (runOps emptyKS [.ups ⟨0, "a"⟩, .del (.str ⟨5, "a"⟩),
      .del (.str ⟨6, "a"⟩), .ups ⟨1, "a"⟩]) "a" = 1 ∧
    upsCount "a" [.ups ⟨0, "a"⟩, .del (.str ⟨5, "a"⟩),
      .del (.str ⟨6, "a"⟩), .ups ⟨1, "a"⟩] = 2 ∧
    delCount "a" [.ups ⟨0, "a"⟩, .del (.str ⟨5, "a"⟩),
      .del (.str ⟨6, "a"⟩), .ups ⟨1, "a"⟩] = 2 ∧
    (1 : Nat) ≠ 2 - 2 := by
  decide

/-- Claim C2 (amended): `Upsert` with a non-null key returns the
canonical interned `key_string` held in `str_map` (inserting the
caller's handle with count 0 and incrementing when absent); two
`Upsert`s of equal keys return the same interned string provided the
key stays present (is never expired) in between; and the stored count
equals the number of `Upsert`s minus the number of `Delete`s that found
the key present. -/
theorem C2_upsert_canonical (st : StoreKS) (s : String) :
    (∀ (k stored : KString) (cnt : Nat), k.val = s →
       findKS st.str_map s = some (stored, cnt) →
       (Upsert st (.str k)).1 = .str stored ∧
       findKS (Upsert st (.str k)).2.str_map s = some (stored, cnt + 1)) ∧
    (∀ k : KString, k.val = s → findKS st.str_map s = none →
       (Upsert st (.str k)).1 = .str k ∧
       findKS (Upsert st (.str k)).2.str_map s = some (k, 1)) ∧
    (∀ (ops : List StoreOp) (stored : KString) (cnt : Nat),
       WFmap st.str_map → findKS st.str_map s = some (stored, cnt) →
       presentThrough st s ops = true →
       ∃ c2, findKS (runOps st ops).str_map s = some (stored, c2)) ∧
    (∀ (k1 k2 : KString) (ops : List StoreOp), WFmap st.str_map →
       k1.val = s → k2.val = s →
       presentThrough (Upsert st (.str k1)).2 s ops = true →
       (Upsert (runOps (Upsert st (.str k1)).2 ops) (.str k2)).1 =
         (Upsert st (.str k1)).1) ∧
    (∀ ops : List StoreOp, WFmap st.str_map →
       countOf (runOps st ops) s + effDelCount st s ops =
         countOf st s + upsCount s ops) := by
  refine ⟨?_, ?_, ?_, ?_, ?_⟩
  · intro k stored cnt hk hf
    subst hk
    rw [Upsert_found st k stored cnt hf]
    exact ⟨rfl, findKS_setCountKS_self st.str_map k.val (cnt + 1) stored cnt hf⟩
  · intro k hk hf
    subst hk
    rw [Upsert_absent st k hf]
    refine ⟨rfl, ?_⟩
    rw [findKS_append_none st.str_map [(k, 1)] k.val hf]
    simp [findKS]
  · intro ops stored cnt hwf hf hpres
    exact storedOf_run_pres s ops st stored cnt hwf hf hpres
  · intro k1 k2 ops hwf hk1 hk2
    subst hk1
    intro hpres
    have hwf1 : WFmap (Upsert st (.str k1)).2.str_map := wf_upsert st (.str k1) hwf
    obtain ⟨r, c, hfind1, hret⟩ :
        ∃ (r : KString) (c : Nat),
          findKS (Upsert st (.str k1)).2.str_map k1.val = some (r, c) ∧
          (Upsert st (.str k1)).1 = .str r := by
      cases hf : findKS st.str_map k1.val with
      | some e =>
        obtain ⟨stored, cnt⟩ := e
        rw [Upsert_found st k1 stored cnt hf]
        exact ⟨stored, cnt + 1,
          findKS_setCountKS_self st.str_map k1.val (cnt + 1) stored cnt hf, rfl⟩
      | none =>
        rw [Upsert_absent st k1 hf]
        refine ⟨k1, 1, ?_, rfl⟩
        rw [findKS_append_none st.str_map [(k1, 1)] k1.val hf]
        simp [findKS]
    obtain ⟨c2, hfind2⟩ :=
      storedOf_run_pres k1.val ops (Upsert st (.str k1)).2 r c hwf1 hfind1 hpres
    have hk2v : k2.val = k1.val := hk2
    rw [hret]
    rw [Upsert_found (runOps (Upsert st (.str k1)).2 ops) k2 r c2
      (by rw [hk2v]; exact hfind2)]
  · intro ops hwf
    exact count_accounting s ops st hwf

/-- Witness for C2: on the empty store, upserting `"a"` stores the
caller's handle with count 1; a second upsert through an intermediate
upsert trace returns the first interned handle; and on the
counterexample trace the corrected accounting (count plus effective
deletes equals initial count plus upserts) holds: 1 + 1 = 0 + 2. -/
theorem C2_upsert_canonical_witness :
    (Upsert emptyKS (.str ⟨0, "a"⟩)).1 = .str ⟨0, "a"⟩ ∧
    findKS (Upsert emptyKS (.str ⟨0, "a"⟩)).2.str_map "a" = some (⟨0, "a"⟩, 1) ∧
    (Upsert (runOps (Upsert emptyKS (.str ⟨0, "a"⟩)).2 [.ups ⟨1, "a"⟩])
        (.str ⟨2, "a"⟩)).1 = (Upsert emptyKS (.str ⟨0, "a"⟩)).1 ∧
    countOf (runOps emptyKS [.ups ⟨0, "a"⟩, .del (.str ⟨5, "a"⟩),
        .del (.str ⟨6, "a"⟩), .ups ⟨1, "a"⟩]) "a" +
      effDelCount emptyKS "a" [.ups ⟨0, "a"⟩, .del (.str ⟨5, "a"⟩),
        .del (.str ⟨6, "a"⟩), .ups ⟨1, "a"⟩] =
    countOf emptyKS "a" + upsCount "a" [.ups ⟨0, "a"⟩, .del (.str ⟨5, "a"⟩),
        .del (.str ⟨6, "a"⟩), .ups ⟨1, "a"⟩] := by
  have h := C2_upsert_canonical emptyKS "a"
  have hwf : WFmap emptyKS.str_map := ⟨List.nodup_nil, by intro e he; simp [emptyKS] at he⟩
  have h2 := h.2.1 ⟨0, "a"⟩ rfl rfl
  refine ⟨h2.1, h2.2, ?_, ?_⟩
  · exact h.2.2.2.1 ⟨0, "a"⟩ ⟨2, "a"⟩ [.ups ⟨1, "a"⟩] hwf rfl rfl (by decide)
  · exact h.2.2.2.2 [.ups ⟨0, "a"⟩, .del (.str ⟨5, "a"⟩),
      .del (.str ⟨6, "a"⟩), .ups ⟨1, "a"⟩] hwf


end Reindexer
